import Mathlib

/-!
Verification of the TalesCam voice-command matcher.

The definitions below are a shallow embedding of the command matcher found
in the repository source (the `levenshtein`, `phoneticSimilarWordsMap`,
`soundsSimilar` and `findBestMatch` declarations of the voice-command hook).
JavaScript strings are modelled by Lean `String`; the JavaScript string
operations used by the matcher (`toLowerCase`, `trim`, `split(' ')`,
`startsWith`, `endsWith`, `substring`, `lastIndexOf`) are re-defined here on
the character list so that every definition is executable and kernel
reducible.  JavaScript numbers are modelled by `ℚ` (all scores involved are
exact decimal fractions).  Callbacks are opaque identifiers (`Nat`): the
matcher never inspects a callback, it only stores one and reports it.
-/

attribute [local semireducible] Rat.mul Rat.inv Rat.add Rat.sub

namespace TalesCam

/-- Lowercase a string character by character (model of `String.toLowerCase`
for the ASCII command phrases the matcher works with). -/
def jsToLower (s : String) : String :=
  String.mk (s.data.map Char.toLower)

/-- Remove leading and trailing whitespace (model of `String.trim`). -/
def jsTrim (s : String) : String :=
  String.mk (((s.data.dropWhile Char.isWhitespace).reverse.dropWhile
    Char.isWhitespace).reverse)

/-- Model of `str.startsWith(p)`. -/
def jsStartsWith (s p : String) : Bool :=
  p.data.isPrefixOf s.data

/-- Model of `str.endsWith(p)`. -/
def jsEndsWith (s p : String) : Bool :=
  p.data.isSuffixOf s.data

/-- Model of `str.substring(n)`: drop the first `n` characters. -/
def jsDrop (s : String) (n : Nat) : String :=
  String.mk (s.data.drop n)

/-- Model of `str.slice(0, -n)`: drop the last `n` characters. -/
def jsDropRight (s : String) (n : Nat) : String :=
  String.mk (s.data.take (s.data.length - n))

/-- Model of `str.substring(0, e)` where `e` may be a JavaScript index
computation that returned `-1`: negative bounds clamp to `0`. -/
def jsSubstringTo (s : String) (e : Int) : String :=
  String.mk (s.data.take e.toNat)

/-- Helper for `jsSplitOnSpace`: accumulate the current word (reversed). -/
def splitOnSpaceAux : List Char → List Char → List (List Char)
  | [], acc => [acc.reverse]
  | c :: cs, acc =>
      if c == ' ' then acc.reverse :: splitOnSpaceAux cs []
      else splitOnSpaceAux cs (c :: acc)

/-- Model of `str.split(' ')`: split at every single space character,
keeping empty fragments, and producing `[""]` on the empty string. -/
def jsSplitOnSpace (s : String) : List String :=
  (splitOnSpaceAux s.data []).map String.mk

/-- Model of `str.lastIndexOf(pat)`: the greatest index at which `pat`
occurs in `str`, or `-1` when there is no occurrence. -/
def jsLastIndexOf (s pat : String) : Int :=
  match (List.range (s.length + 1)).reverse.find?
      (fun i => jsStartsWith (jsDrop s i) pat) with
  | some i => (i : Int)
  | none => -1

/-- One inner step of the Levenshtein dynamic-programming row update:
given the character `cb` of the second string, the remaining characters of
the first string, the tail of the previous row, and the entry just computed
to the left, produce the rest of the new row. -/
def levGo (cb : Char) : List Char → List Nat → Nat → List Nat
  | ca :: rest, p0 :: ptail, left =>
      let next := if cb == ca then p0
        else Nat.min p0 (Nat.min (ptail.headD 0) left) + 1
      next :: levGo cb rest ptail next
  | [], _, _ => []
  | _ :: _, [], _ => []

/-- Compute the next Levenshtein row from the previous one. -/
def levRowStep (a : List Char) (prev : List Nat) (cb : Char) : List Nat :=
  let left := prev.headD 0 + 1
  left :: levGo cb a prev left

/-- Character-level Levenshtein edit distance, translated from the matrix
construction in the source (`levenshtein`), row by row. -/
def levenshtein (sa sb : String) : Nat :=
  let a := sa.data
  let b := sb.data
  if a.isEmpty then b.length
  else if b.isEmpty then a.length
  else ((b.foldl (levRowStep a) (List.range (a.length + 1))).getLastD 0)

/-- The process-wide, read-only phonetic-confusability table
(`phoneticSimilarWordsMap` in the source), transcribed entry by entry in
declaration order, duplicates included. -/
def phoneticSimilarWordsMap : List (String × List String) :=
  [ ("photo", ["photo", "foto", "shot", "pot", "plot", "pro", "show",
      "goes", "those", "close", "flows"]),
    ("take a photo", ["take a photo", "fake a photo", "make a photo",
      "cake a photo", "bake a photo"]),
    ("capture", ["capture", "captor", "rapture", "chapter", "cap tour",
      "trap door", "trap tour"]),
    ("snap", ["snap", "snapped", "snapchat", "clap", "slap", "trap",
      "map", "cap", "lap", "gap"]),
    ("home", ["home", "hole", "hose", "hold", "hope", "cope", "cope",
      "know", "flow", "slow"]),
    ("main screen", ["main screen", "man screen", "men screen",
      "mine screen", "mean screen"]),
    ("start over", ["start over", "starp over", "start hover",
      "heart cover", "cart rover"]),
    ("back", ["back", "pack", "track", "hack", "crack", "stack", "lack",
      "sack", "tack"]),
    ("next", ["next", "text", "flex", "tests", "best", "rest", "gets",
      "wrecks", "decks"]),
    ("skip", ["skip", "ship", "slip", "grip", "trip", "flip", "nip",
      "lip", "zip", "rip"]),
    ("auto", ["auto", "otto", "out to", "out two", "ought to", "ocho"]),
    ("reset", ["reset", "re-set", "re set", "preset", "regret", "re bet",
      "re get"]),
    ("raised", ["raised", "rased", "rays", "raise", "raze", "rase",
      "rease", "race", "re set"]),
    ("retry", ["retry", "re try", "re try", "re tie", "re cry"]),
    ("try again", ["try again", "cry again", "tie again", "fly again",
      "die again", "lie again"]),
    ("check", ["check", "tech", "deck", "neck", "beck", "peck", "reck",
      "wreck", "sec", "shek"]),
    ("enable", ["enable", "in able", "in cable", "unstable", "in table",
      "in label"]),
    ("uncheck", ["uncheck", "un tech", "on check", "un deck", "an check",
      "on tech"]),
    ("disable", ["disable", "dis able", "dis cable", "this able",
      "dis table"]),
    ("generate", ["generate", "general late", "general gate",
      "gen a rate", "general eight"]),
    ("confirm", ["confirm", "con firm", "con form", "con farm",
      "can form", "con fern"]),
    ("save story", ["save story", "safe story", "save glory",
      "safe glory", "have story"]),
    ("download", ["download", "down load", "dawn load", "don load",
      "on load"]),
    ("upload", ["upload", "up load", "up road", "a prod", "up broad"]),
    ("upload image", ["upload image", "up load image", "upload im age",
      "upload imige"]),
    ("beginning", ["beginning", "begin in", "begin then", "beginning",
      "begining"]),
    ("start", ["start", "starp", "heart", "cart", "part", "mart"]),
    ("middle", ["middle", "muddle", "meddle", "riddle", "fiddle",
      "piddle"]),
    ("end", ["end", "and", "and", "land", "hand", "band", "stand",
      "sand"]),
    ("and", ["and", "end", "land", "hand", "band", "stand", "sand"]) ]

/-- Model of the JavaScript property access `phoneticSimilarWordsMap[w]`:
the word list stored under key `w`, if `w` is a key of the table. -/
def lookupWords (w : String) : Option (List String) :=
  (phoneticSimilarWordsMap.find? (fun e => e.fst == w)).map (·.snd)

/-- Model of
`Object.keys(phoneticSimilarWordsMap).find(key => map[key].some(word => word === w))`:
the first table key whose word list contains `w`. -/
def findMainCommand (w : String) : Option String :=
  (phoneticSimilarWordsMap.find? (fun e => e.snd.any (· == w))).map (·.fst)

/-- Second disjunct of `soundsSimilar`: `word1` is itself a table key whose
word list contains `word2`. -/
def keyListContains (word1 word2 : String) : Bool :=
  match lookupWords word1 with
  | some l => l.contains word2
  | none => false

/-- Third (and, with arguments swapped, fourth) disjunct of
`soundsSimilar`: the first key-list containing `word1` also contains
`word2`. -/
def mainClassContains (word1 word2 : String) : Bool :=
  match findMainCommand word1 with
  | some k =>
      match lookupWords k with
      | some l => l.contains word2
      | none => false
  | none => false

/-- Translation of the source's `soundsSimilar`: exact equality, direct
table lookup of `word1`, the class of `word1` containing `word2`, or the
class of `word2` containing `word1`. -/
def soundsSimilar (word1 word2 : String) : Bool :=
  if word1 == word2 then true
  else if keyListContains word1 word2 then true
  else if mainClassContains word1 word2 then true
  else if mainClassContains word2 word1 then true
  else false

/-- A voice command as the matcher consumes it: one phrase or an array of
alternate phrases, plus a callback.  Callbacks are modelled as opaque
identifiers; the matcher only stores and reports them. -/
structure Command where
  command : String ⊕ List String
  callback : Nat
deriving DecidableEq

/-- Model of `Array.isArray(command) ? command : [command]`. -/
def phrasesOf (c : Command) : List String :=
  match c.command with
  | Sum.inl s => [s]
  | Sum.inr l => l

/-- The running best-match record of `findBestMatch`: score, the callback
of the best command so far (`null` initially), and its extracted
arguments. -/
structure BestMatch where
  score : ℚ
  callback : Option Nat
  args : List String
deriving DecidableEq

/-- The initial best match: `{ score: 0, callback: null, args: [] }`. -/
def initBest : BestMatch := ⟨0, none, []⟩

/-- Model of the update pattern repeated in every branch of the source:
`if (score > bestMatch.score) bestMatch = { score, callback, args }`. -/
def updateBest (best : BestMatch) (score : ℚ) (cb : Nat)
    (args : List String) : BestMatch :=
  if score > best.score then ⟨score, some cb, args⟩ else best

/-- Transcript preprocessing at the top of `findBestMatch`: lowercase,
trim, and collapse a transcript made of exactly two identical words to the
single word. -/
def processTranscript (transcript : String) : String :=
  let p := jsTrim (jsToLower transcript)
  match jsSplitOnSpace p with
  | [w1, w2] => if w1 == w2 then w1 else p
  | _ => p

/-- Branch of the inner loop for the universal wildcard phrase `"*"`:
score `0.81` if nothing so far scored above `0.5`, else the suppressed
score `0.1`; the extracted argument is the raw transcript. -/
def wildcardBranch (transcript : String) (cb : Nat) (best : BestMatch) :
    BestMatch :=
  let score : ℚ := if best.score > 1/2 then 1/10 else 81/100
  updateBest best score cb [transcript]

/-- Branch of the inner loop for a prefix pattern `"<words> *"` (a phrase
ending in `*`): match when the processed transcript starts with the
trimmed text before the star; the argument is the raw transcript after the
prefix, trimmed, and must be non-empty. -/
def trailingStarBranch (transcript processed : String) (cb : Nat)
    (best : BestMatch) (lowerPhrase : String) : BestMatch :=
  let pfx := jsTrim (jsDropRight lowerPhrase 1)
  if jsStartsWith processed pfx then
    let arg := jsTrim (jsDrop transcript pfx.length)
    if arg == "" then best
    else updateBest best (9/10 + (pfx.length : ℚ) / 100) cb [arg]
  else best

/-- Branch of the inner loop for a suffix pattern `"* <words>"` (a phrase
starting with `*`): match when the processed transcript ends with the
trimmed text after the star, or when the phonetic class found for the
whole pattern string contains a word sounding like the transcript; the
argument is the raw transcript up to the last occurrence of the last
word, trimmed. -/
def leadingStarBranch (transcript processed : String) (cb : Nat)
    (best : BestMatch) (lowerPhrase : String) : BestMatch :=
  let sfx := jsTrim (jsDrop lowerPhrase 1)
  let ws := jsSplitOnSpace processed
  let lastWord := ws.getLastD ""
  let isMatch := jsEndsWith processed sfx ||
    (match findMainCommand lowerPhrase with
     | some k =>
         match lookupWords k with
         | some l => l.any (fun w => soundsSimilar w processed)
         | none => false
     | none => false)
  if isMatch then
    let arg := jsTrim (jsSubstringTo transcript
      (jsLastIndexOf processed lastWord))
    updateBest best (9/10 + (sfx.length : ℚ) / 100) cb [arg]
  else best

/-- Branch of the inner loop for a literal phrase: exact equality scores
`1.0`; otherwise a phonetic-table match scores `0.8` minus `0.05` per
character of length difference; otherwise the normalized Levenshtein
similarity is used. -/
def literalBranch (processed : String) (cb : Nat) (best : BestMatch)
    (lowerPhrase : String) : BestMatch :=
  if processed == lowerPhrase then
    updateBest best 1 cb []
  else
    let m1 :=
      match lookupWords lowerPhrase with
      | some l => l.any (fun w => soundsSimilar w processed)
      | none => false
    let isMatch := m1 ||
      (match findMainCommand lowerPhrase with
       | some k =>
           match lookupWords k with
           | some (w :: _) => soundsSimilar w processed
           | _ => false
       | none => false)
    if isMatch then
      let lengthDiff : ℕ :=
        ((processed.length : Int) - (lowerPhrase.length : Int)).natAbs
      updateBest best (8/10 - (lengthDiff : ℚ) * (5/100)) cb []
    else
      let d := levenshtein processed lowerPhrase
      updateBest best
        (1 - (d : ℚ) / (max processed.length lowerPhrase.length : ℚ))
        cb []

/-- Score one phrase of one command against the transcript, updating the
running best match: direct translation of the body of the inner loop of
`findBestMatch`, dispatching on the shape of the phrase.  `transcript` is
the raw argument (used for argument extraction), `processed` the
lowercased, trimmed, duplicate-collapsed transcript used for
comparison. -/
def scorePhrase (transcript processed : String) (cb : Nat)
    (best : BestMatch) (phrase : String) : BestMatch :=
  let lowerPhrase := jsToLower phrase
  if lowerPhrase == "*" then
    wildcardBranch transcript cb best
  else if jsEndsWith lowerPhrase "*" then
    trailingStarBranch transcript processed cb best lowerPhrase
  else if jsStartsWith lowerPhrase "*" then
    leadingStarBranch transcript processed cb best lowerPhrase
  else
    literalBranch processed cb best lowerPhrase

/-- Score every phrase of one command (inner loop of `findBestMatch`). -/
def scoreCommand (transcript processed : String) (best : BestMatch)
    (c : Command) : BestMatch :=
  (phrasesOf c).foldl (scorePhrase transcript processed c.callback) best

/-- Score every command (outer loop of `findBestMatch`). -/
def runCommands (transcript processed : String)
    (commands : List Command) : BestMatch :=
  commands.foldl (scoreCommand transcript processed) initBest

/-- Translation of `findBestMatch`: preprocess the transcript, fold the
scoring loop over all commands and phrases, and accept the best match only
if its score reaches the 0.7 threshold and a callback was recorded. -/
def findBestMatch (commands : List Command) (transcript : String) :
    Option BestMatch :=
  let processed := processTranscript transcript
  let best := runCommands transcript processed commands
  if 7/10 ≤ best.score ∧ best.callback.isSome then some best else none

/-- The candidate produced by a non-wildcard phrase, extracted from the
corresponding branch: its score and extracted arguments do not depend on
the running best match.  `none` means the phrase produces no candidate
(and the wildcard phrase, whose score does depend on the running best, is
mapped to `none` as well; it is handled separately). -/
def candidateOf (transcript processed phrase : String) :
    Option (ℚ × List String) :=
  let lowerPhrase := jsToLower phrase
  if lowerPhrase == "*" then none
  else if jsEndsWith lowerPhrase "*" then
    let pfx := jsTrim (jsDropRight lowerPhrase 1)
    if jsStartsWith processed pfx then
      let arg := jsTrim (jsDrop transcript pfx.length)
      if arg == "" then none
      else some (9/10 + (pfx.length : ℚ) / 100, [arg])
    else none
  else if jsStartsWith lowerPhrase "*" then
    let sfx := jsTrim (jsDrop lowerPhrase 1)
    let ws := jsSplitOnSpace processed
    let lastWord := ws.getLastD ""
    let isMatch := jsEndsWith processed sfx ||
      (match findMainCommand lowerPhrase with
       | some k =>
           match lookupWords k with
           | some l => l.any (fun w => soundsSimilar w processed)
           | none => false
       | none => false)
    if isMatch then
      some (9/10 + (sfx.length : ℚ) / 100,
        [jsTrim (jsSubstringTo transcript (jsLastIndexOf processed lastWord))])
    else none
  else
    if processed == lowerPhrase then some (1, [])
    else
      let m1 :=
        match lookupWords lowerPhrase with
        | some l => l.any (fun w => soundsSimilar w processed)
        | none => false
      let isMatch := m1 ||
        (match findMainCommand lowerPhrase with
         | some k =>
             match lookupWords k with
             | some (w :: _) => soundsSimilar w processed
             | _ => false
         | none => false)
      if isMatch then
        let lengthDiff : ℕ :=
          ((processed.length : Int) - (lowerPhrase.length : Int)).natAbs
        some (8/10 - (lengthDiff : ℚ) * (5/100), [])
      else
        let d := levenshtein processed lowerPhrase
        some (1 - (d : ℚ) / (max processed.length lowerPhrase.length : ℚ), [])

/-- A phrase is a plain literal: not the wildcard and not a prefix or
suffix pattern. -/
def litShape (phrase : String) : Prop :=
  (jsToLower phrase == "*") = false ∧
  jsEndsWith (jsToLower phrase) "*" = false ∧
  jsStartsWith (jsToLower phrase) "*" = false

/-- If the phrase is a prefix pattern, its prefix text has at most 10
characters, and if it is a suffix pattern, its suffix text has at most 10
characters (each text computed exactly as in the corresponding branch),
so a pattern candidate scores at most `0.9 + 10/100 = 1`.  Literal
phrases and the universal wildcard are unconstrained. -/
def shortPattern (phrase : String) : Prop :=
  (jsEndsWith (jsToLower phrase) "*" = true →
    (jsTrim (jsDropRight (jsToLower phrase) 1)).length ≤ 10) ∧
  ((jsEndsWith (jsToLower phrase) "*" = false ∧
      jsStartsWith (jsToLower phrase) "*" = true) →
    (jsTrim (jsDrop (jsToLower phrase) 1)).length ≤ 10)

/-- A phrase that cannot match an empty transcript: not the universal
wildcard, not the empty literal, and not a suffix pattern whose suffix
text is empty. -/
def safeForEmpty (phrase : String) : Prop :=
  (jsToLower phrase == "*") = false ∧
  (jsToLower phrase == "") = false ∧
  ¬(jsStartsWith (jsToLower phrase) "*" = true ∧
    jsTrim (jsDrop (jsToLower phrase) 1) = "")

instance (phrase : String) : Decidable (litShape phrase) := by
  unfold litShape; infer_instance

instance (phrase : String) : Decidable (shortPattern phrase) := by
  unfold shortPattern; infer_instance

instance (phrase : String) : Decidable (safeForEmpty phrase) := by
  unfold safeForEmpty; infer_instance

/-- Check, for one table entry, that the first key-list containing the
entry's key covers the entry's own word list.  This holds of every entry
of the table and is what makes `soundsSimilar` symmetric. -/
def classCover (e : String × List String) : Bool :=
  match findMainCommand e.fst with
  | some k =>
      match lookupWords k with
      | some l2 => e.snd.all (fun w => l2.contains w)
      | none => false
  | none => false

theorem updateBest_score_lower (best : BestMatch) (s : ℚ) (cb : Nat)
    (a : List String) : best.score ≤ (updateBest best s cb a).score := by
  unfold updateBest
  split
  · exact le_of_lt (by assumption)
  · exact le_refl _

theorem updateBest_score_cand (best : BestMatch) (s : ℚ) (cb : Nat)
    (a : List String) : s ≤ (updateBest best s cb a).score := by
  unfold updateBest
  split
  · exact le_refl _
  · exact le_of_not_lt (by assumption)

theorem updateBest_noop (best : BestMatch) (s : ℚ) (cb : Nat)
    (a : List String) (h : s ≤ best.score) : updateBest best s cb a = best := by
  unfold updateBest
  exact if_neg (not_lt.mpr h)

theorem updateBest_score_le (best : BestMatch) (s b : ℚ) (cb : Nat)
    (a : List String) (h1 : best.score ≤ b) (h2 : s ≤ b) :
    (updateBest best s cb a).score ≤ b := by
  unfold updateBest
  split
  · exact h2
  · exact h1

theorem updateBest_args (best : BestMatch) (s : ℚ) (cb : Nat)
    (a : List String) :
    (updateBest best s cb a).args = best.args ∨
      (updateBest best s cb a).args = a := by
  unfold updateBest
  split
  · exact Or.inr rfl
  · exact Or.inl rfl

theorem updateBest_callback (best : BestMatch) (s : ℚ) (cb : Nat)
    (a : List String) :
    (updateBest best s cb a).callback = best.callback ∨
      (updateBest best s cb a).callback = some cb := by
  unfold updateBest
  split
  · exact Or.inr rfl
  · exact Or.inl rfl

theorem updateBest_cases (best : BestMatch) (s : ℚ) (cb : Nat)
    (a : List String) :
    updateBest best s cb a = best ∨ (updateBest best s cb a).args = a := by
  unfold updateBest
  split
  · exact Or.inr rfl
  · exact Or.inl rfl

set_option maxHeartbeats 1000000 in
/-- A non-wildcard phrase acts on the running best match exactly through
its state-independent candidate. -/
theorem scorePhrase_eq_candidate (transcript processed : String) (cb : Nat)
    (best : BestMatch) (phrase : String)
    (h : (jsToLower phrase == "*") = false) :
    scorePhrase transcript processed cb best phrase =
      match candidateOf transcript processed phrase with
      | none => best
      | some (s, a) => updateBest best s cb a := by
  unfold scorePhrase candidateOf trailingStarBranch leadingStarBranch
    literalBranch
  simp only [h, Bool.false_eq_true, if_false]
  repeat' split <;> try rfl

/-- The wildcard phrase updates the best match with score `0.1` or `0.81`
depending on whether anything before it scored above `0.5`. -/
theorem scorePhrase_wildcard (transcript processed : String) (cb : Nat)
    (best : BestMatch) (phrase : String)
    (h : (jsToLower phrase == "*") = true) :
    scorePhrase transcript processed cb best phrase =
      updateBest best (if best.score > 1/2 then 1/10 else 81/100) cb
        [transcript] := by
  unfold scorePhrase wildcardBranch
  simp only [h, if_true]

/-- The wildcard test of `candidateOf`: a phrase with a candidate is not
the wildcard. -/
theorem candidateOf_not_wildcard (transcript processed phrase : String)
    (s : ℚ) (a : List String)
    (hc : candidateOf transcript processed phrase = some (s, a)) :
    (jsToLower phrase == "*") = false := by
  cases hb : (jsToLower phrase == "*") with
  | false => rfl
  | true =>
      unfold candidateOf at hc
      simp only [hb, if_true] at hc
      exact absurd hc (by simp)

/-- Scoring one phrase never lowers the running best score. -/
theorem scorePhrase_score_mono (transcript processed : String) (cb : Nat)
    (best : BestMatch) (phrase : String) :
    best.score ≤ (scorePhrase transcript processed cb best phrase).score := by
  cases hb : (jsToLower phrase == "*") with
  | true =>
      rw [scorePhrase_wildcard transcript processed cb best phrase hb]
      exact updateBest_score_lower ..
  | false =>
      rw [scorePhrase_eq_candidate transcript processed cb best phrase hb]
      cases hc : candidateOf transcript processed phrase with
      | none => exact le_refl _
      | some sa =>
          obtain ⟨s, a⟩ := sa
          exact updateBest_score_lower ..

/-- Folding the phrase loop never lowers the running best score. -/
theorem phraseFold_score_mono (transcript processed : String) (cb : Nat) :
    ∀ (phs : List String) (best : BestMatch),
      best.score ≤ (phs.foldl (scorePhrase transcript processed cb) best).score := by
  intro phs
  induction phs with
  | nil => intro best; exact le_refl _
  | cons ph rest ih =>
      intro best
      exact le_trans (scorePhrase_score_mono transcript processed cb best ph)
        (ih (scorePhrase transcript processed cb best ph))

/-- Scoring one command never lowers the running best score. -/
theorem scoreCommand_score_mono (transcript processed : String)
    (best : BestMatch) (c : Command) :
    best.score ≤ (scoreCommand transcript processed best c).score :=
  phraseFold_score_mono transcript processed c.callback (phrasesOf c) best

/-- Folding the command loop never lowers the running best score. -/
theorem cmdFold_score_mono (transcript processed : String) :
    ∀ (cmds : List Command) (best : BestMatch),
      best.score ≤ (cmds.foldl (scoreCommand transcript processed) best).score := by
  intro cmds
  induction cmds with
  | nil => intro best; exact le_refl _
  | cons c rest ih =>
      intro best
      exact le_trans (scoreCommand_score_mono transcript processed best c)
        (ih (scoreCommand transcript processed best c))

/-- The final best score is at least the score of any candidate a phrase
produced. -/
theorem cand_le_scorePhrase (transcript processed : String) (cb : Nat)
    (best : BestMatch) (phrase : String) (s : ℚ) (a : List String)
    (hc : candidateOf transcript processed phrase = some (s, a)) :
    s ≤ (scorePhrase transcript processed cb best phrase).score := by
  rw [scorePhrase_eq_candidate transcript processed cb best phrase
    (candidateOf_not_wildcard transcript processed phrase s a hc)]
  simp only [hc]
  exact updateBest_score_cand ..

/-- The phrase fold reaches at least the score of any member phrase's
candidate. -/
theorem phraseFold_ge_cand (transcript processed : String) (cb : Nat) :
    ∀ (phs : List String) (best : BestMatch) (ph : String), ph ∈ phs →
      ∀ (s : ℚ) (a : List String),
        candidateOf transcript processed ph = some (s, a) →
        s ≤ (phs.foldl (scorePhrase transcript processed cb) best).score := by
  intro phs
  induction phs with
  | nil => intro best ph hph; exact absurd hph (List.not_mem_nil ph)
  | cons ph0 rest ih =>
      intro best ph hph s a hc
      rcases List.mem_cons.mp hph with h | h
      · subst h
        exact le_trans
          (cand_le_scorePhrase transcript processed cb best ph s a hc)
          (phraseFold_score_mono transcript processed cb rest _)
      · exact ih _ ph h s a hc

/-- The command fold reaches at least the score of any candidate produced
by any phrase of any command in the list. -/
theorem cmdFold_ge_cand (transcript processed : String) :
    ∀ (cmds : List Command) (best : BestMatch) (c : Command), c ∈ cmds →
      ∀ (ph : String), ph ∈ phrasesOf c →
      ∀ (s : ℚ) (a : List String),
        candidateOf transcript processed ph = some (s, a) →
        s ≤ (cmds.foldl (scoreCommand transcript processed) best).score := by
  intro cmds
  induction cmds with
  | nil => intro best c hc; exact absurd hc (List.not_mem_nil c)
  | cons c0 rest ih =>
      intro best c hc ph hph s a hcand
      rcases List.mem_cons.mp hc with h | h
      · subst h
        exact le_trans
          (phraseFold_ge_cand transcript processed c.callback (phrasesOf c)
            best ph hph s a hcand)
          (cmdFold_score_mono transcript processed rest _)
      · exact ih _ c h ph hph s a hcand

/-- Splitting the command fold across an append. -/
theorem runCommands_append (transcript processed : String)
    (pre post : List Command) :
    runCommands transcript processed (pre ++ post) =
      post.foldl (scoreCommand transcript processed)
        (runCommands transcript processed pre) := by
  unfold runCommands
  exact List.foldl_append ..

/-- A phrase leaves a best match above `0.5` unchanged when every
candidate it could produce scores no higher than that best match. -/
theorem scorePhrase_noop (transcript processed : String) (cb : Nat)
    (best : BestMatch) (phrase : String) (hB : 1/2 < best.score)
    (hc : ∀ (s : ℚ) (a : List String),
      candidateOf transcript processed phrase = some (s, a) →
        s ≤ best.score) :
    scorePhrase transcript processed cb best phrase = best := by
  cases hb : (jsToLower phrase == "*") with
  | true =>
      rw [scorePhrase_wildcard transcript processed cb best phrase hb,
        if_pos hB]
      exact updateBest_noop best _ cb _ (by linarith)
  | false =>
      rw [scorePhrase_eq_candidate transcript processed cb best phrase hb]
      cases hcand : candidateOf transcript processed phrase with
      | none => rfl
      | some sa =>
          obtain ⟨s, a⟩ := sa
          exact updateBest_noop best s cb a (hc s a hcand)

/-- The command fold leaves a best match above `0.5` unchanged when every
candidate any of its phrases could produce scores no higher than that
best match. -/
theorem cmdFold_noop (transcript processed : String) :
    ∀ (cmds : List Command) (best : BestMatch), 1/2 < best.score →
      (∀ c ∈ cmds, ∀ ph ∈ phrasesOf c, ∀ (s : ℚ) (a : List String),
        candidateOf transcript processed ph = some (s, a) →
          s ≤ best.score) →
      cmds.foldl (scoreCommand transcript processed) best = best := by
  intro cmds
  induction cmds with
  | nil => intro best _ _; rfl
  | cons c0 rest ih =>
      intro best hB hc
      have hcmd : scoreCommand transcript processed best c0 = best := by
        unfold scoreCommand
        have : ∀ (phs : List String),
            (∀ ph ∈ phs, ∀ (s : ℚ) (a : List String),
              candidateOf transcript processed ph = some (s, a) →
                s ≤ best.score) →
            phs.foldl (scorePhrase transcript processed c0.callback) best
              = best := by
          intro phs
          induction phs with
          | nil => intro _; rfl
          | cons ph0 prest pih =>
              intro hps
              have h0 : scorePhrase transcript processed c0.callback best ph0
                  = best :=
                scorePhrase_noop transcript processed c0.callback best ph0 hB
                  (hps ph0 (List.mem_cons_self ph0 prest))
              rw [List.foldl_cons, h0]
              exact pih (fun ph hph => hps ph (List.mem_cons_of_mem ph0 hph))
        exact this (phrasesOf c0)
          (fun ph hph => hc c0 (List.mem_cons_self c0 rest) ph hph)
      rw [List.foldl_cons, hcmd]
      exact ih best hB
        (fun c hmem => hc c (List.mem_cons_of_mem c0 hmem))

/-- No word stored in the phonetic table starts with a star. -/
theorem table_no_star : ∀ e ∈ phoneticSimilarWordsMap, ∀ w ∈ e.2,
    jsStartsWith w "*" = false := by decide

/-- No word stored in the phonetic table sounds similar to the empty
string. -/
theorem table_not_similar_empty : ∀ e ∈ phoneticSimilarWordsMap, ∀ w ∈ e.2,
    soundsSimilar w "" = false := by decide

/-- Every table entry's word list is covered by the first key-list
containing the entry's key. -/
theorem table_class_cover : ∀ e ∈ phoneticSimilarWordsMap,
    classCover e = true := by decide

/-- A string that starts with a star is not in any phonetic class, so the
key search for it fails. -/
theorem findMainCommand_star (w : String) (h : jsStartsWith w "*" = true) :
    findMainCommand w = none := by
  unfold findMainCommand
  have hnone : phoneticSimilarWordsMap.find?
      (fun e => e.snd.any (· == w)) = none := by
    rw [List.find?_eq_none]
    intro e he hany
    obtain ⟨x, hxmem, hxw⟩ := List.any_eq_true.mp hany
    have hx : x = w := eq_of_beq hxw
    subst hx
    rw [table_no_star e he x hxmem] at h
    exact absurd h (by simp)
  rw [hnone]
  rfl

/-- Claim C2: `match` returns a result exactly when the best candidate
score reaches the threshold `0.7` and a callback was recorded; a best
score of exactly `0.7` (reached here by an edit-distance candidate) is
accepted, and a best score strictly below `0.7` yields no match. -/
theorem c2_threshold : (∀ (cmds : List Command) (t : String),
      (findBestMatch cmds t).isSome = true ↔
        (7/10 ≤ (runCommands t (processTranscript t) cmds).score ∧
         (runCommands t (processTranscript t) cmds).callback.isSome = true))
    ∧ findBestMatch [⟨Sum.inl "abcdefghij", 1⟩] "abcdefgxyz" =
        some ⟨7/10, some 1, []⟩
    ∧ (runCommands "abcdefxyz" "abcdefxyz" [⟨Sum.inl "abcdefghi", 1⟩]).score
        = 2/3
    ∧ ((2 : ℚ)/3 < 7/10)
    ∧ findBestMatch [⟨Sum.inl "abcdefghi", 1⟩] "abcdefxyz" = none := by
  refine ⟨fun cmds t => ?_, by decide, by decide, by decide, by decide⟩
  simp only [findBestMatch]
  split
  · next h => simp only [Option.isSome_some, true_iff]; exact h
  · next h =>
      simp only [Option.isSome_none, Bool.false_eq_true, false_iff]
      exact h

/-- Claim C9: the matcher is a pure function of the transcript and the
command list: calls on equal inputs return equal results. -/
theorem c9_deterministic (cmds1 cmds2 : List Command) (t1 t2 : String)
    (hc : cmds1 = cmds2) (ht : t1 = t2) :
    findBestMatch cmds1 t1 = findBestMatch cmds2 t2 := by
  subst hc; subst ht; rfl

/-- Witness for C9 at a concrete input. -/
theorem c9_deterministic_witness :
    findBestMatch [⟨Sum.inl "photo", 1⟩] "photo" =
      findBestMatch [⟨Sum.inl "photo", 1⟩] "photo" :=
  c9_deterministic [⟨Sum.inl "photo", 1⟩] [⟨Sum.inl "photo", 1⟩]
    "photo" "photo" rfl rfl

/-- Counterexample to claim C1 as stated: with the wildcard listed first,
the literal command "photo" produces a candidate scoring `0.75 > 0.5` on
the transcript "foto", yet the wildcard is assigned the non-suppressed
score `0.81` (nothing had scored above `0.5` before it) and wins, so the
resolved command is the wildcard, not the specific one: the invariant is
position-dependent. -/
theorem c1_counterexample :
    candidateOf "foto" "foto" "photo" = some (3/4, []) ∧
    ((1 : ℚ)/2 < 3/4) ∧
    findBestMatch [⟨Sum.inl "*", 0⟩, ⟨Sum.inl "photo", 1⟩] "foto" =
      some ⟨81/100, some 0, ["foto"]⟩ := by
  refine ⟨by decide, by decide, by decide⟩

/-- Claim C1 (amended): when the wildcard command appears after the
commands among which some candidate scored above `0.5`, the wildcard is
assigned the suppressed score `0.1`, never becomes the best match, and the
overall result is as if the wildcard command were absent. -/
theorem c1_amended (t : String) (pre post : List Command) (cb : Nat)
    (h : 1/2 < (runCommands t (processTranscript t) pre).score) :
    findBestMatch (pre ++ ⟨Sum.inl "*", cb⟩ :: post) t =
      findBestMatch (pre ++ post) t := by
  have hstar : (jsToLower "*" == "*") = true := by decide
  have hrun : runCommands t (processTranscript t)
      (pre ++ ⟨Sum.inl "*", cb⟩ :: post) =
      runCommands t (processTranscript t) (pre ++ post) := by
    rw [runCommands_append, runCommands_append, List.foldl_cons]
    have hwc : scoreCommand t (processTranscript t)
        (runCommands t (processTranscript t) pre) ⟨Sum.inl "*", cb⟩ =
        runCommands t (processTranscript t) pre := by
      unfold scoreCommand phrasesOf
      simp only [List.foldl_cons, List.foldl_nil]
      rw [scorePhrase_wildcard t (processTranscript t) cb _ "*" hstar,
        if_pos h]
      exact updateBest_noop _ _ _ _ (by linarith)
    rw [hwc]
  simp only [findBestMatch]
  rw [hrun]

/-- Witness for the amended C1: literal "photo" before the wildcard, on
transcript "foto"; the wildcard changes nothing and the literal wins. -/
theorem c1_amended_witness :
    findBestMatch [⟨Sum.inl "photo", 1⟩, ⟨Sum.inl "*", 0⟩] "foto" =
      findBestMatch [⟨Sum.inl "photo", 1⟩] "foto" :=
  c1_amended "foto" [⟨Sum.inl "photo", 1⟩] [] 0 (by decide)

/-- Counterexample to claim C3 as stated: the transcript equals the
literal phrase "hello world x" of the second command (its candidate scores
exactly `1.0`), but the prefix-pattern command "hello world *" scores
`0.9 + 11/100 = 1.01 > 1.0` and wins, so the exact literal match does not
always win. -/
theorem c3_counterexample :
    candidateOf "hello world x" "hello world x" "hello world x" =
      some (1, []) ∧
    findBestMatch [⟨Sum.inl "hello world *", 0⟩,
        ⟨Sum.inl "hello world x", 1⟩] "hello world x" =
      some ⟨101/100, some 0, ["x"]⟩ := by
  refine ⟨by decide, by decide⟩

/-- Counterexample to claim C4 as stated: the trailing word "and" of the
transcript "stop and" is phonetically confusable with the suffix "end" of
the pattern "* end", and the transcript does not end with "end", so the
claim predicts a match (score `0.93`); the code produces no match, because
its phonetic fallback looks the whole pattern string "* end" up in the
table and never finds it. -/
theorem c4_counterexample :
    soundsSimilar "and" "end" = true ∧
    processTranscript "stop and" = "stop and" ∧
    jsEndsWith "stop and" "end" = false ∧
    findBestMatch [⟨Sum.inl "* end", 7⟩] "stop and" = none := by
  refine ⟨by decide, by decide, by decide, by decide⟩

/-- Counterexample to claim C5 as stated: on the prefix-pattern command
"photo *", the duplicated transcript "photo photo" matches (the argument
"photo" is extracted from the raw transcript), while the collapsed
transcript "photo" does not match at all (its extracted argument is
empty), so the two calls do not behave identically. -/
theorem c5_counterexample :
    processTranscript "photo photo" = "photo" ∧
    findBestMatch [⟨Sum.inl "photo *", 3⟩] "photo photo" =
      some ⟨19/20, some 3, ["photo"]⟩ ∧
    findBestMatch [⟨Sum.inl "photo *", 3⟩] "photo" = none := by
  refine ⟨by decide, by decide, by decide⟩

/-- Counterexample to claim C6 as stated: on the empty transcript with a
wildcard command present, the matcher does score candidates and returns
the wildcard with score `0.81` instead of short-circuiting to no
match. -/
theorem c6_counterexample :
    jsTrim "" = "" ∧
    findBestMatch [⟨Sum.inl "*", 5⟩] "" = some ⟨81/100, some 5, [""]⟩ := by
  refine ⟨by decide, by decide⟩

/-- Counterexample to claim C7 as stated: a prefix pattern with an
11-character prefix produces an accepted result whose score `1.01` lies
outside `[0, 1]`. -/
theorem c7_counterexample :
    findBestMatch [⟨Sum.inl "hello world *", 0⟩] "hello world x" =
      some ⟨101/100, some 0, ["x"]⟩ ∧
    ((1 : ℚ) < 101/100) := by
  refine ⟨by decide, by decide⟩

/-- Claim C4 (amended): a suffix-pattern candidate matches exactly when
the processed transcript ends with the suffix text; the phonetic
alternative written in the branch never applies, because the key search is
made with the whole pattern string (which contains the star and therefore
occurs in no phonetic class).  On a match the score is
`0.9 + len(suffix)/100` and the argument is the raw transcript up to the
last word, trimmed. -/
theorem c4_amended (transcript processed : String) (cb : Nat)
    (best : BestMatch) (ph : String)
    (h1 : (jsToLower ph == "*") = false)
    (h2 : jsEndsWith (jsToLower ph) "*" = false)
    (h3 : jsStartsWith (jsToLower ph) "*" = true) :
    scorePhrase transcript processed cb best ph =
      (if jsEndsWith processed (jsTrim (jsDrop (jsToLower ph) 1)) then
        updateBest best
          (9/10 + ((jsTrim (jsDrop (jsToLower ph) 1)).length : ℚ) / 100) cb
          [jsTrim (jsSubstringTo transcript (jsLastIndexOf processed
            ((jsSplitOnSpace processed).getLastD "")))]
      else best) := by
  unfold scorePhrase leadingStarBranch
  simp only [h1, h2, h3, Bool.false_eq_true, if_false, if_true]
  rw [findMainCommand_star (jsToLower ph) h3]
  simp only [Bool.or_false]

/-- Witness for the amended C4 on the concrete suffix command
"* seconds": the transcript "photo in 5 seconds" ends with "seconds", so
it matches with score `0.97` and argument "photo in 5". -/
theorem c4_amended_witness :
    scorePhrase "photo in 5 seconds" "photo in 5 seconds" 7 initBest
        "* seconds" =
      (if jsEndsWith "photo in 5 seconds"
          (jsTrim (jsDrop (jsToLower "* seconds") 1)) then
        updateBest initBest
          (9/10 + ((jsTrim (jsDrop (jsToLower "* seconds") 1)).length : ℚ)
            / 100) 7
          [jsTrim (jsSubstringTo "photo in 5 seconds"
            (jsLastIndexOf "photo in 5 seconds"
              ((jsSplitOnSpace "photo in 5 seconds").getLastD "")))]
      else initBest) :=
  c4_amended "photo in 5 seconds" "photo in 5 seconds" 7 initBest
    "* seconds" (by decide) (by decide) (by decide)

/-- A literal phrase scores without looking at the raw transcript. -/
theorem scorePhrase_transcript_irrel (t1 t2 p : String) (cb : Nat)
    (best : BestMatch) (ph : String) (hlit : litShape ph) :
    scorePhrase t1 p cb best ph = scorePhrase t2 p cb best ph := by
  obtain ⟨h1, h2, h3⟩ := hlit
  unfold scorePhrase
  simp only [h1, h2, h3, Bool.false_eq_true, if_false]

set_option maxHeartbeats 1000000 in
/-- The phrase fold over literal phrases ignores the raw transcript. -/
theorem phraseFold_transcript_irrel (t1 t2 p : String) (cb : Nat) :
    ∀ (phs : List String) (best : BestMatch),
      (∀ ph ∈ phs, litShape ph) →
      phs.foldl (scorePhrase t1 p cb) best =
        phs.foldl (scorePhrase t2 p cb) best := by
  intro phs
  induction phs with
  | nil => intro best _; simp only [List.foldl_nil]
  | cons ph0 rest ih =>
      intro best h
      simp only [List.foldl_cons]
      rw [scorePhrase_transcript_irrel t1 t2 p cb best ph0
        (h ph0 (List.mem_cons_self ph0 rest))]
      exact ih _ (fun ph hph => h ph (List.mem_cons_of_mem ph0 hph))

set_option maxHeartbeats 1000000 in
/-- The command fold over literal-only commands ignores the raw
transcript. -/
theorem cmdFold_transcript_irrel (t1 t2 p : String) :
    ∀ (cmds : List Command) (best : BestMatch),
      (∀ c ∈ cmds, ∀ ph ∈ phrasesOf c, litShape ph) →
      cmds.foldl (scoreCommand t1 p) best =
        cmds.foldl (scoreCommand t2 p) best := by
  intro cmds
  induction cmds with
  | nil => intro best _; simp only [List.foldl_nil]
  | cons c0 rest ih =>
      intro best h
      simp only [List.foldl_cons]
      have hc0 : scoreCommand t1 p best c0 = scoreCommand t2 p best c0 :=
        phraseFold_transcript_irrel t1 t2 p c0.callback (phrasesOf c0) best
          (h c0 (List.mem_cons_self c0 rest))
      rw [hc0]
      exact ih _ (fun c hc => h c (List.mem_cons_of_mem c0 hc))

/-- Claim C5 (amended): when the transcript consists of exactly two
identical words, it is collapsed to the single word, and for command
lists made only of literal phrases the match is fully identical to
matching the single word.  (For wildcard, prefix and suffix patterns the
extracted argument — and for prefix patterns even the match itself —
depends on the raw, uncollapsed transcript, as the counterexample
shows.) -/
theorem c5_amended (t a : String) (cmds : List Command)
    (hsplit : jsSplitOnSpace (jsTrim (jsToLower t)) = [a, a])
    (hnorm : jsTrim (jsToLower a) = a)
    (hsingle : jsSplitOnSpace a = [a])
    (hlit : ∀ c ∈ cmds, ∀ ph ∈ phrasesOf c, litShape ph) :
    findBestMatch cmds t = findBestMatch cmds a := by
  have hpt : processTranscript t = a := by
    simp only [processTranscript, hsplit]
    simp
  have hpa : processTranscript a = a := by
    simp only [processTranscript, hnorm, hsingle]
  simp only [findBestMatch]
  rw [hpt, hpa]
  unfold runCommands
  rw [cmdFold_transcript_irrel t a a cmds initBest hlit]

/-- Witness for the amended C5: "photo photo" and "photo" resolve
identically on the literal command "photo". -/
theorem c5_amended_witness :
    findBestMatch [⟨Sum.inl "photo", 1⟩] "photo photo" =
      findBestMatch [⟨Sum.inl "photo", 1⟩] "photo" :=
  c5_amended "photo photo" "photo" [⟨Sum.inl "photo", 1⟩]
    (by decide) (by decide) (by decide) (by decide)

/-- A string whose character list is empty is the empty string. -/
theorem string_eq_empty_of_data (s : String) (h : s.data = []) : s = "" := by
  cases s with
  | mk d => subst h; rfl

/-- Only the empty string is a prefix of the empty string. -/
theorem startsWith_empty_left (s : String)
    (h : jsStartsWith "" s = true) : s = "" := by
  unfold jsStartsWith at h
  cases hs : s.data with
  | nil => exact string_eq_empty_of_data s hs
  | cons c cs =>
      rw [hs] at h
      simp [List.isPrefixOf] at h

/-- Only the empty string is a suffix of the empty string. -/
theorem endsWith_empty_left (s : String)
    (h : jsEndsWith "" s = true) : s = "" := by
  unfold jsEndsWith at h
  apply string_eq_empty_of_data
  cases hs : s.data with
  | nil => rfl
  | cons c cs =>
      rw [hs] at h
      simp only [List.isSuffixOf] at h
      rcases List.isPrefixOf_iff_prefix.mp h with hpre
      have := hpre.length_le
      simp at this

/-- A nonempty string has a nonzero length. -/
theorem length_ne_zero_of_ne_empty (s : String) (h : (s == "") = false) :
    s.length ≠ 0 := by
  intro hl
  have hd : s.data = [] := List.length_eq_zero.mp hl
  rw [string_eq_empty_of_data s hd] at h
  simp at h

/-- Every list returned by a successful table lookup is one of the
table's word lists. -/
theorem lookupWords_mem (x : String) (l : List String)
    (h : lookupWords x = some l) :
    ∃ e ∈ phoneticSimilarWordsMap, e.snd = l := by
  unfold lookupWords at h
  cases hf : phoneticSimilarWordsMap.find? (fun e => e.fst == x) with
  | none => rw [hf] at h; exact absurd h (by simp)
  | some e =>
      rw [hf] at h
      simp only [Option.map_some'] at h
      exact ⟨e, List.mem_of_find?_eq_some hf, Option.some.inj h⟩

/-- No word of any table list sounds similar to the empty string, so a
whole-list check fails. -/
theorem table_list_any_empty (l : List String)
    (hl : ∃ e ∈ phoneticSimilarWordsMap, e.snd = l) :
    l.any (fun w => soundsSimilar w "") = false := by
  obtain ⟨e, hmem, hel⟩ := hl
  cases hany : l.any (fun w => soundsSimilar w "") with
  | false => rfl
  | true =>
      obtain ⟨w, hw, hsim⟩ := List.any_eq_true.mp hany
      rw [table_not_similar_empty e hmem w (hel ▸ hw)] at hsim
      exact absurd hsim (by simp)

/-- A phrase that is safe for the empty transcript leaves the initial
best match unchanged when the processed transcript is empty. -/
theorem scorePhrase_empty_noop (t : String) (cb : Nat) (ph : String)
    (ht2 : jsTrim t = "") (hsafe : safeForEmpty ph) :
    scorePhrase t "" cb initBest ph = initBest := by
  obtain ⟨h1, h2, h3⟩ := hsafe
  unfold scorePhrase
  simp only [h1, Bool.false_eq_true, if_false]
  cases hE : jsEndsWith (jsToLower ph) "*" with
  | true =>
      simp only [if_true]
      unfold trailingStarBranch
      cases hP : jsStartsWith "" (jsTrim (jsDropRight (jsToLower ph) 1)) with
      | false => simp only [hP, Bool.false_eq_true, if_false]
      | true =>
          have hpfx : jsTrim (jsDropRight (jsToLower ph) 1) = "" :=
            startsWith_empty_left _ hP
          simp only [hP, if_true, hpfx]
          have harg : jsTrim (jsDrop t ("" : String).length) = "" := by
            have : jsDrop t ("" : String).length = t := by
              show jsDrop t 0 = t
              unfold jsDrop
              rfl
            rw [this, ht2]
          rw [harg]
          simp
  | false =>
      simp only [hE, Bool.false_eq_true, if_false]
      cases hS : jsStartsWith (jsToLower ph) "*" with
      | true =>
          simp only [if_true]
          unfold leadingStarBranch
          have hsfx : jsTrim (jsDrop (jsToLower ph) 1) ≠ "" := by
            intro hc
            exact h3 ⟨hS, hc⟩
          have hend : jsEndsWith "" (jsTrim (jsDrop (jsToLower ph) 1))
              = false := by
            cases hcase : jsEndsWith "" (jsTrim (jsDrop (jsToLower ph) 1)) with
            | false => rfl
            | true => exact absurd (endsWith_empty_left _ hcase) hsfx
          rw [findMainCommand_star (jsToLower ph) hS]
          simp [hend]
      | false =>
          simp only [hS, Bool.false_eq_true, if_false]
          unfold literalBranch
          have hne : (("" : String) == jsToLower ph) = false := by
            cases hcase : (("" : String) == jsToLower ph) with
            | false => rfl
            | true =>
                have : ("" : String) = jsToLower ph := eq_of_beq hcase
                rw [← this] at h2
                exact absurd h2 (by simp)
          simp only [hne, Bool.false_eq_true, if_false]
          have hm1 : (match lookupWords (jsToLower ph) with
              | some l => l.any (fun w => soundsSimilar w "")
              | none => false) = false := by
            cases hlk : lookupWords (jsToLower ph) with
            | none => rfl
            | some l => exact table_list_any_empty l (lookupWords_mem _ l hlk)
          have hm2 : (match findMainCommand (jsToLower ph) with
              | some k =>
                  match lookupWords k with
                  | some (w :: _) => soundsSimilar w ""
                  | _ => false
              | none => false) = false := by
            cases hfm : findMainCommand (jsToLower ph) with
            | none => rfl
            | some k =>
                dsimp only
                cases hlk : lookupWords k with
                | none => rfl
                | some l =>
                    cases hl : l with
                    | nil => rfl
                    | cons w rest =>
                        show soundsSimilar w "" = false
                        obtain ⟨e, hmem, hel⟩ := lookupWords_mem k l hlk
                        exact table_not_similar_empty e hmem w
                          (by rw [hel, hl]; exact List.mem_cons_self w rest)
          rw [hm1, hm2]
          simp only [Bool.or_self, Bool.false_eq_true, if_false]
          have hd : levenshtein "" (jsToLower ph) = (jsToLower ph).length := by
            unfold levenshtein
            rfl
          rw [hd]
          have hlen : ((jsToLower ph).length : ℚ) ≠ 0 :=
            Nat.cast_ne_zero.mpr (length_ne_zero_of_ne_empty _ h2)
          have h0 : ((("" : String).length : ℕ) : ℚ) = 0 := by
            rw [show ("" : String).length = 0 from rfl]
            norm_num
          rw [h0, max_eq_right (Nat.cast_nonneg _), div_self hlen]
          apply updateBest_noop
          norm_num [initBest]

/-- With an empty processed transcript and only safe phrases, the whole
command fold never moves off the initial best match. -/
theorem runCommands_empty (t : String) (ht2 : jsTrim t = "") :
    ∀ (cmds : List Command),
      (∀ c ∈ cmds, ∀ ph ∈ phrasesOf c, safeForEmpty ph) →
      runCommands t "" cmds = initBest := by
  intro cmds
  unfold runCommands
  induction cmds with
  | nil => intro _; simp only [List.foldl_nil]
  | cons c0 rest ih =>
      intro h
      simp only [List.foldl_cons]
      have hc0 : scoreCommand t "" initBest c0 = initBest := by
        unfold scoreCommand
        have : ∀ (phs : List String), (∀ ph ∈ phs, safeForEmpty ph) →
            phs.foldl (scorePhrase t "" c0.callback) initBest = initBest := by
          intro phs
          induction phs with
          | nil => intro _; simp only [List.foldl_nil]
          | cons ph0 prest pih =>
              intro hp
              simp only [List.foldl_cons]
              rw [scorePhrase_empty_noop t c0.callback ph0 ht2
                (hp ph0 (List.mem_cons_self ph0 prest))]
              exact pih (fun ph hph => hp ph (List.mem_cons_of_mem ph0 hph))
        exact this (phrasesOf c0) (h c0 (List.mem_cons_self c0 rest))
      rw [hc0]
      exact ih (fun c hc => h c (List.mem_cons_of_mem c0 hc))

/-- Claim C6 (amended): an empty or whitespace-only transcript produces
no match provided no command phrase is the universal wildcard, the empty
literal, or a suffix pattern with empty suffix text; candidates are still
scored (no short-circuit exists in the code), but none of them can move
the best match off its initial state. -/
theorem c6_amended (t : String) (cmds : List Command)
    (ht1 : jsTrim (jsToLower t) = "") (ht2 : jsTrim t = "")
    (hsafe : ∀ c ∈ cmds, ∀ ph ∈ phrasesOf c, safeForEmpty ph) :
    findBestMatch cmds t = none := by
  have hpt : processTranscript t = "" := by
    simp only [processTranscript, ht1]
    decide
  simp only [findBestMatch]
  rw [hpt, runCommands_empty t ht2 cmds hsafe]
  rw [if_neg]
  rintro ⟨hge, _⟩
  norm_num [initBest] at hge

/-- Witness for the amended C6: the whitespace transcript " " with a
command list containing a literal, a prefix pattern and a suffix pattern
yields no match. -/
theorem c6_amended_witness :
    findBestMatch [⟨Sum.inl "photo", 1⟩, ⟨Sum.inl "next *", 2⟩,
      ⟨Sum.inr ["* seconds", "back"], 3⟩] " " = none :=
  c6_amended " " [⟨Sum.inl "photo", 1⟩, ⟨Sum.inl "next *", 2⟩,
      ⟨Sum.inr ["* seconds", "back"], 3⟩]
    (by decide) (by decide) (by decide)

/-- Under the 10-character pattern bound, every candidate scores at most
`1`. -/
theorem candidateOf_score_le_one (t p ph : String) (s : ℚ) (a : List String)
    (hshort : shortPattern ph) (hc : candidateOf t p ph = some (s, a)) :
    s ≤ 1 := by
  obtain ⟨hs1, hs2⟩ := hshort
  simp only [candidateOf] at hc
  split at hc
  · exact absurd hc (by simp)
  · split at hc
    · next hE =>
        have hcast : ((jsTrim (jsDropRight (jsToLower ph) 1)).length : ℚ)
            ≤ 10 := by exact_mod_cast hs1 hE
        split at hc
        · split at hc
          · exact absurd hc (by simp)
          · simp only [Option.some.injEq, Prod.mk.injEq] at hc
            obtain ⟨hq, -⟩ := hc
            subst hq
            linarith
        · exact absurd hc (by simp)
    · next hE =>
        have hEf : jsEndsWith (jsToLower ph) "*" = false := by
          simp at hE
          exact hE
        split at hc
        · next hS =>
            have hcast : ((jsTrim (jsDrop (jsToLower ph) 1)).length : ℚ)
                ≤ 10 := by exact_mod_cast hs2 ⟨hEf, hS⟩
            split at hc
            · simp only [Option.some.injEq, Prod.mk.injEq] at hc
              obtain ⟨hq, -⟩ := hc
              subst hq
              linarith
            · exact absurd hc (by simp)
        · split at hc
          · simp only [Option.some.injEq, Prod.mk.injEq] at hc
            obtain ⟨hq, -⟩ := hc
            subst hq
            exact le_refl 1
          · split at hc
            · simp only [Option.some.injEq, Prod.mk.injEq] at hc
              obtain ⟨hq, -⟩ := hc
              subst hq
              have hpos : (0 : ℚ) ≤
                  ((((p.length : Int) - ((jsToLower ph).length : Int)).natAbs
                    : ℕ) : ℚ) * (5/100) := by positivity
              linarith
            · simp only [Option.some.injEq, Prod.mk.injEq] at hc
              obtain ⟨hq, -⟩ := hc
              subst hq
              have hdiv : (0 : ℚ) ≤
                  ((levenshtein p (jsToLower ph) : ℕ) : ℚ) /
                    max ((p.length : ℕ) : ℚ)
                      (((jsToLower ph).length : ℕ) : ℚ) := by
                apply div_nonneg (Nat.cast_nonneg _)
                exact le_trans (Nat.cast_nonneg _) (le_max_left _ _)
              linarith

/-- Under the 10-character pattern bound, one scoring step keeps the best
score at most `1`. -/
theorem scorePhrase_score_le_one (t p : String) (cb : Nat)
    (best : BestMatch) (ph : String) (hshort : shortPattern ph)
    (hb : best.score ≤ 1) :
    (scorePhrase t p cb best ph).score ≤ 1 := by
  cases hw : (jsToLower ph == "*") with
  | true =>
      rw [scorePhrase_wildcard t p cb best ph hw]
      apply updateBest_score_le _ _ _ _ _ hb
      split <;> norm_num
  | false =>
      rw [scorePhrase_eq_candidate t p cb best ph hw]
      cases hc : candidateOf t p ph with
      | none => exact hb
      | some sa =>
          obtain ⟨s, a⟩ := sa
          exact updateBest_score_le _ _ _ _ _ hb
            (candidateOf_score_le_one t p ph s a hshort hc)

/-- Under the 10-character pattern bound, the whole fold keeps the best
score at most `1`. -/
theorem cmdFold_score_le_one (t p : String) :
    ∀ (cmds : List Command) (best : BestMatch),
      (∀ c ∈ cmds, ∀ ph ∈ phrasesOf c, shortPattern ph) →
      best.score ≤ 1 →
      (cmds.foldl (scoreCommand t p) best).score ≤ 1 := by
  intro cmds
  induction cmds with
  | nil => intro best _ hb; simpa only [List.foldl_nil] using hb
  | cons c0 rest ih =>
      intro best h hb
      simp only [List.foldl_cons]
      have hc0 : (scoreCommand t p best c0).score ≤ 1 := by
        unfold scoreCommand
        have : ∀ (phs : List String) (b : BestMatch),
            (∀ ph ∈ phs, shortPattern ph) → b.score ≤ 1 →
            (phs.foldl (scorePhrase t p c0.callback) b).score ≤ 1 := by
          intro phs
          induction phs with
          | nil => intro b _ hb0; simpa only [List.foldl_nil] using hb0
          | cons ph0 prest pih =>
              intro b hp hb0
              simp only [List.foldl_cons]
              exact pih _ (fun ph hph => hp ph (List.mem_cons_of_mem ph0 hph))
                (scorePhrase_score_le_one t p c0.callback b ph0
                  (hp ph0 (List.mem_cons_self ph0 prest)) hb0)
        exact this (phrasesOf c0) best (h c0 (List.mem_cons_self c0 rest)) hb
      exact ih _ (fun c hc => h c (List.mem_cons_of_mem c0 hc)) hc0

/-- Claim C7 (amended): when every prefix and suffix pattern in the
command list has a pattern text of at most 10 characters, an accepted
result's score lies in `[0, 1]` (indeed in `[0.7, 1]`); without that
bound a pattern of length `n` can produce an accepted score of
`0.9 + n/100 > 1`, as the counterexample shows. -/
theorem c7_amended (cmds : List Command) (t : String)
    (h : ∀ c ∈ cmds, ∀ ph ∈ phrasesOf c, shortPattern ph)
    (r : BestMatch) (hr : findBestMatch cmds t = some r) :
    0 ≤ r.score ∧ r.score ≤ 1 := by
  simp only [findBestMatch] at hr
  split at hr
  · next hcond =>
      have hr' := Option.some.inj hr
      constructor
      · have h7 := hcond.1
        rw [← hr']
        linarith
      · rw [← hr']
        exact cmdFold_score_le_one t (processTranscript t) cmds initBest h
          (by norm_num [initBest])
  · exact absurd hr (by simp)

/-- Witness for the amended C7: the hypothesis is satisfied by a long
literal phrase ("take a photo", 12 characters, unconstrained) together
with a prefix pattern whose prefix text has exactly 10 characters. -/
theorem c7_amended_witness :
    (0 : ℚ) ≤ (⟨1, some 1, []⟩ : BestMatch).score ∧
      (⟨1, some 1, []⟩ : BestMatch).score ≤ 1 :=
  c7_amended [⟨Sum.inl "take a photo", 1⟩, ⟨Sum.inl "abcdefghij *", 2⟩]
    "take a photo" (by decide) ⟨1, some 1, []⟩ (by decide)

/-- The four disjuncts of `soundsSimilar`. -/
theorem soundsSimilar_iff (w1 w2 : String) :
    soundsSimilar w1 w2 = true ↔
      (w1 = w2 ∨ keyListContains w1 w2 = true ∨
       mainClassContains w1 w2 = true ∨
       mainClassContains w2 w1 = true) := by
  constructor
  · intro h
    unfold soundsSimilar at h
    split at h
    · next hbe => exact Or.inl (eq_of_beq hbe)
    · split at h
      · next hkl => exact Or.inr (Or.inl hkl)
      · split at h
        · next hmc => exact Or.inr (Or.inr (Or.inl hmc))
        · split at h
          · next hmc2 => exact Or.inr (Or.inr (Or.inr hmc2))
          · exact absurd h (by simp)
  · rintro (h | h | h | h)
    · subst h; simp [soundsSimilar]
    · simp [soundsSimilar, h]
    · simp [soundsSimilar, h]
    · simp [soundsSimilar, h]

/-- A direct hit of the lookup of `word1` is absorbed by the class of
`word1`: the first key-list containing a key covers the key's own
list. -/
theorem keyList_sub_mainClass (x y : String)
    (h : keyListContains x y = true) : mainClassContains x y = true := by
  unfold keyListContains at h
  cases hlk : lookupWords x with
  | none => rw [hlk] at h; exact absurd h (by simp)
  | some l =>
      rw [hlk] at h
      unfold lookupWords at hlk
      cases hf : phoneticSimilarWordsMap.find? (fun e => e.fst == x) with
      | none => rw [hf] at hlk; exact absurd hlk (by simp)
      | some e =>
          rw [hf] at hlk
          simp only [Option.map_some'] at hlk
          have hel : e.snd = l := Option.some.inj hlk
          have hpe := List.find?_some hf
          have hex : e.fst = x := eq_of_beq hpe
          have hmem : e ∈ phoneticSimilarWordsMap :=
            List.mem_of_find?_eq_some hf
          have hcov := table_class_cover e hmem
          unfold classCover at hcov
          cases hfm : findMainCommand e.fst with
          | none => rw [hfm] at hcov; exact absurd hcov (by simp)
          | some k =>
              rw [hfm] at hcov
              dsimp only at hcov
              cases hlk2 : lookupWords k with
              | none => rw [hlk2] at hcov; exact absurd hcov (by simp)
              | some l2 =>
                  rw [hlk2] at hcov
                  dsimp only at hcov
                  unfold mainClassContains
                  rw [← hex, hfm]
                  dsimp only
                  rw [hlk2]
                  dsimp only at h ⊢
                  have hymem : y ∈ l := List.mem_of_elem_eq_true h
                  exact List.all_eq_true.mp hcov y (hel ▸ hymem)

/-- Claim C8: the phonetic similarity test is symmetric in its two
arguments, for all strings. -/
theorem c8_soundsSimilar_symm (w1 w2 : String) :
    soundsSimilar w1 w2 = soundsSimilar w2 w1 := by
  have hbool : ∀ a b : Bool, (a = true ↔ b = true) → a = b := by decide
  apply hbool
  rw [soundsSimilar_iff, soundsSimilar_iff]
  constructor
  · rintro (h | h | h | h)
    · exact Or.inl h.symm
    · exact Or.inr (Or.inr (Or.inr (keyList_sub_mainClass w1 w2 h)))
    · exact Or.inr (Or.inr (Or.inr h))
    · exact Or.inr (Or.inr (Or.inl h))
  · rintro (h | h | h | h)
    · exact Or.inl h.symm
    · exact Or.inr (Or.inr (Or.inr (keyList_sub_mainClass w2 w1 h)))
    · exact Or.inr (Or.inr (Or.inr h))
    · exact Or.inr (Or.inr (Or.inl h))

/-- Claim C3 (amended): a literal phrase equal to the processed
transcript produces a candidate of score exactly `1.0` with no arguments,
and it is resolved whenever every other command's candidates score below
`1` (prefix/suffix patterns of 10 or more characters can reach `1.0` and
beyond and then beat or pre-empt the exact match, as the counterexample
shows). -/
theorem c3_amended (t ph : String) (cb : Nat) (pre post : List Command)
    (hlit : litShape ph)
    (hexact : processTranscript t = jsToLower ph)
    (hothers :
      (runCommands t (processTranscript t) (pre ++ post)).score < 1) :
    findBestMatch (pre ++ ⟨Sum.inl ph, cb⟩ :: post) t =
      some ⟨1, some cb, []⟩ := by
  obtain ⟨h1, h2, h3⟩ := hlit
  have hcand : candidateOf t (processTranscript t) ph = some (1, []) := by
    unfold candidateOf
    simp only [h1, h2, h3, Bool.false_eq_true, if_false]
    rw [if_pos]
    rw [hexact]
    exact beq_self_eq_true (jsToLower ph)
  have hpre_lt : (runCommands t (processTranscript t) pre).score < 1 := by
    apply lt_of_le_of_lt _ hothers
    rw [runCommands_append]
    exact cmdFold_score_mono t (processTranscript t) post _
  have hstep : scoreCommand t (processTranscript t)
      (runCommands t (processTranscript t) pre) ⟨Sum.inl ph, cb⟩ =
      ⟨1, some cb, []⟩ := by
    unfold scoreCommand phrasesOf
    simp only [List.foldl_cons, List.foldl_nil]
    rw [scorePhrase_eq_candidate t (processTranscript t) cb _ ph h1, hcand]
    dsimp only
    unfold updateBest
    rw [if_pos hpre_lt]
  have hpost : post.foldl (scoreCommand t (processTranscript t))
      (⟨1, some cb, []⟩ : BestMatch) = ⟨1, some cb, []⟩ := by
    apply cmdFold_noop
    · norm_num
    · intro c hcm ph' hphm s a hcand'
      have hle : s ≤ (runCommands t (processTranscript t)
          (pre ++ post)).score := by
        unfold runCommands
        exact cmdFold_ge_cand t (processTranscript t) (pre ++ post) initBest
          c (List.mem_append_right pre hcm) ph' hphm s a hcand'
      exact le_of_lt (lt_of_le_of_lt hle hothers)
  have hrun : runCommands t (processTranscript t)
      (pre ++ ⟨Sum.inl ph, cb⟩ :: post) = ⟨1, some cb, []⟩ := by
    rw [runCommands_append, List.foldl_cons, hstep, hpost]
  simp only [findBestMatch]
  rw [hrun]
  split
  · rfl
  · next hcond => exact absurd ⟨by norm_num, rfl⟩ hcond

/-- Witness for the amended C3: transcript "photo" with commands
`["back", "photo", "*"]`; every candidate of "back" and of the wildcard
scores below `1`, so the exact literal "photo" wins with score `1`. -/
theorem c3_amended_witness :
    findBestMatch [⟨Sum.inl "back", 2⟩, ⟨Sum.inl "photo", 9⟩,
      ⟨Sum.inl "*", 0⟩] "photo" = some ⟨1, some 9, []⟩ :=
  c3_amended "photo" "photo" 9 [⟨Sum.inl "back", 2⟩] [⟨Sum.inl "*", 0⟩]
    (by decide) (by decide) (by decide)

/-- Every candidate's argument list is empty or a single string; it is
empty exactly for the literal branches, and a singleton for the pattern
branches. -/
theorem candidateOf_args_shape (t p ph : String) (s : ℚ) (a : List String)
    (hc : candidateOf t p ph = some (s, a)) :
    a = [] ∨ ∃ x, a = [x] := by
  simp only [candidateOf] at hc
  split at hc
  · exact absurd hc (by simp)
  · split at hc
    · split at hc
      · split at hc
        · exact absurd hc (by simp)
        · simp only [Option.some.injEq, Prod.mk.injEq] at hc
          exact Or.inr ⟨_, hc.2.symm⟩
      · exact absurd hc (by simp)
    · split at hc
      · split at hc
        · simp only [Option.some.injEq, Prod.mk.injEq] at hc
          exact Or.inr ⟨_, hc.2.symm⟩
        · exact absurd hc (by simp)
      · split at hc
        · simp only [Option.some.injEq, Prod.mk.injEq] at hc
          exact Or.inl hc.2.symm
        · split at hc
          · simp only [Option.some.injEq, Prod.mk.injEq] at hc
            exact Or.inl hc.2.symm
          · simp only [Option.some.injEq, Prod.mk.injEq] at hc
            exact Or.inl hc.2.symm

/-- One scoring step keeps the argument list at length at most one. -/
theorem scorePhrase_args_len (t p : String) (cb : Nat) (best : BestMatch)
    (ph : String) (hb : best.args.length ≤ 1) :
    (scorePhrase t p cb best ph).args.length ≤ 1 := by
  cases hw : (jsToLower ph == "*") with
  | true =>
      rw [scorePhrase_wildcard t p cb best ph hw]
      rcases updateBest_args best _ cb [t] with h | h <;> rw [h]
      · exact hb
      · simp
  | false =>
      rw [scorePhrase_eq_candidate t p cb best ph hw]
      cases hc : candidateOf t p ph with
      | none => exact hb
      | some sa =>
          obtain ⟨s, a⟩ := sa
          rcases updateBest_args best s cb a with h | h <;> rw [h]
          · exact hb
          · rcases candidateOf_args_shape t p ph s a hc with ha | ⟨x, ha⟩ <;>
              subst ha <;> simp

/-- The whole fold keeps the argument list at length at most one. -/
theorem cmdFold_args_len (t p : String) :
    ∀ (cmds : List Command) (best : BestMatch), best.args.length ≤ 1 →
      (cmds.foldl (scoreCommand t p) best).args.length ≤ 1 := by
  intro cmds
  induction cmds with
  | nil => intro best hb; simpa only [List.foldl_nil] using hb
  | cons c0 rest ih =>
      intro best hb
      simp only [List.foldl_cons]
      apply ih
      unfold scoreCommand
      have : ∀ (phs : List String) (b : BestMatch), b.args.length ≤ 1 →
          (phs.foldl (scorePhrase t p c0.callback) b).args.length ≤ 1 := by
        intro phs
        induction phs with
        | nil => intro b hb0; simpa only [List.foldl_nil] using hb0
        | cons ph0 prest pih =>
            intro b hb0
            simp only [List.foldl_cons]
            exact pih _ (scorePhrase_args_len t p c0.callback b ph0 hb0)
      exact this (phrasesOf c0) best hb

/-- Claim C10: every accepted result carries a recorded callback, a score
of at least `0.7` and at most one argument; literal candidates carry no
argument, pattern candidates exactly one, and the wildcard records the
raw transcript as its single argument when it updates the best match. -/
theorem c10_result_shape :
    (∀ (cmds : List Command) (t : String) (r : BestMatch),
        findBestMatch cmds t = some r →
          r.callback.isSome = true ∧ 7/10 ≤ r.score ∧ r.args.length ≤ 1)
    ∧ (∀ (t p ph : String) (s : ℚ) (a : List String),
        candidateOf t p ph = some (s, a) →
          (litShape ph → a = []) ∧
          ((jsEndsWith (jsToLower ph) "*" = true ∨
            jsStartsWith (jsToLower ph) "*" = true) → ∃ x, a = [x]))
    ∧ (∀ (t p : String) (cb : Nat) (best : BestMatch) (ph : String),
        (jsToLower ph == "*") = true →
          scorePhrase t p cb best ph = best ∨
          (scorePhrase t p cb best ph).args = [t]) := by
  refine ⟨?_, ?_, ?_⟩
  · intro cmds t r hr
    simp only [findBestMatch] at hr
    split at hr
    · next hcond =>
        have hr' := Option.some.inj hr
        refine ⟨?_, ?_, ?_⟩
        · rw [← hr']; exact hcond.2
        · rw [← hr']; exact hcond.1
        · rw [← hr']
          exact cmdFold_args_len t (processTranscript t) cmds initBest
            (by norm_num [initBest])
    · exact absurd hr (by simp)
  · intro t p ph s a hc
    constructor
    · intro hlit
      obtain ⟨h1, h2, h3⟩ := hlit
      simp only [candidateOf, h1, h2, h3, Bool.false_eq_true, if_false]
        at hc
      split at hc
      · simp only [Option.some.injEq, Prod.mk.injEq] at hc
        exact hc.2.symm
      · split at hc
        · simp only [Option.some.injEq, Prod.mk.injEq] at hc
          exact hc.2.symm
        · simp only [Option.some.injEq, Prod.mk.injEq] at hc
          exact hc.2.symm
    · intro hpat
      rcases candidateOf_args_shape t p ph s a hc with ha | ha
      · subst ha
        exfalso
        simp only [candidateOf] at hc
        split at hc
        · exact absurd hc (by simp)
        · split at hc
          · split at hc
            · split at hc
              · exact absurd hc (by simp)
              · simp only [Option.some.injEq, Prod.mk.injEq] at hc
                exact absurd hc.2.symm (by simp)
            · exact absurd hc (by simp)
          · split at hc
            · split at hc
              · simp only [Option.some.injEq, Prod.mk.injEq] at hc
                exact absurd hc.2.symm (by simp)
              · exact absurd hc (by simp)
            · next hE hS =>
                rcases hpat with hp | hp
                · exact hE hp
                · exact hS hp
      · exact ha
  · intro t p cb best ph h
    rw [scorePhrase_wildcard t p cb best ph h]
    exact updateBest_cases best _ cb [t]

/-- Witness for C10 at concrete inputs: an accepted prefix-pattern result
with one argument, the exact-literal candidate with no argument, and the
wildcard recording the raw transcript. -/
theorem c10_result_shape_witness :
    ((⟨19/20, some 3, ["photo"]⟩ : BestMatch).callback.isSome = true ∧
      7/10 ≤ (⟨19/20, some 3, ["photo"]⟩ : BestMatch).score ∧
      (⟨19/20, some 3, ["photo"]⟩ : BestMatch).args.length ≤ 1)
    ∧ ((litShape "photo" → ([] : List String) = []) ∧
        ((jsEndsWith (jsToLower "photo") "*" = true ∨
          jsStartsWith (jsToLower "photo") "*" = true) →
          ∃ x, ([] : List String) = [x]))
    ∧ (scorePhrase "hi" "hi" 0 initBest "*" = initBest ∨
        (scorePhrase "hi" "hi" 0 initBest "*").args = ["hi"]) :=
  ⟨c10_result_shape.1 [⟨Sum.inl "photo *", 3⟩] "photo photo"
      ⟨19/20, some 3, ["photo"]⟩ (by decide),
    c10_result_shape.2.1 "photo" "photo" "photo" 1 [] (by decide),
    c10_result_shape.2.2 "hi" "hi" 0 initBest "*" (by decide)⟩

end TalesCam
